import Mathlib

/-!
Verification of the ClassicGAN repository architecture definitions.

Part 1 embeds `network.py` (PyTorch WaveNet) over exact rationals:
a 1-D feature map (one batch element) is a `List (List ℚ)` — channels,
each a list of timesteps.  Convolutions are translated tap-for-tap from
`torch.nn.Conv1d` (stride 1, symmetric zero padding, dilation); the
framework activations `tanh`/`sigmoid` are real-valued primitives and
are carried as function-valued module fields, exactly where the Python
modules store `torch.nn.Tanh()` / `torch.nn.Sigmoid()`.

Part 2 embeds the TensorFlow model (`v1 & v2/Model.py`): the
spectral-norm power iteration over rational matrices (with the square
root carried as a function parameter, since `x ** 0.5` is a framework
primitive), and the static-shape semantics of the GAN blocks, which is
what the shape claims (resolution doubling, loop termination on the
spatial dimension) are about.
-/

/-- One batch element of a 1-D feature map: channels × time. -/
abbrev Tensor2 : Type := List (List ℚ)

/-- A batched 1-D feature map: batch × channels × time. -/
abbrev Tensor3 : Type := List Tensor2

/-- Symmetric zero padding of a single channel (torch `padding=p`). -/
def pad1d (p : Nat) (xc : List ℚ) : List ℚ :=
  List.replicate p 0 ++ xc ++ List.replicate p 0

/-- One output sample of one (out-channel, in-channel) kernel slice:
sum over kernel taps `k` of `w[k] * x[t + k*dil]` on the padded signal. -/
def tapSum (wc xc : List ℚ) (dil t : Nat) : ℚ :=
  ((List.range wc.length).map (fun k => wc.getD k 0 * xc.getD (t + k * dil) 0)).sum

/-- One output sample of one out-channel: sum over in-channels. -/
def chanSum (wo : List (List ℚ)) (xp : Tensor2) (dil t : Nat) : ℚ :=
  ((List.range wo.length).map (fun c => tapSum (wo.getD c []) (xp.getD c []) dil t)).sum

/-- The `torch.nn.Conv1d` with stride 1, the given symmetric padding and
dilation, no bias.  The kernel extent is the weight's last axis, the
output length is `T + 2*pad - dil*(ker-1)` (stride 1). -/
def conv1d (W : List (List (List ℚ))) (pad dil : Nat) (x : Tensor2) : Tensor2 :=
  let ker := ((W.headD []).headD []).length
  let xp := x.map (pad1d pad)
  let T := (x.headD []).length
  let outLen := T + 2 * pad - dil * (ker - 1)
  W.map (fun wo => (List.range outLen).map (fun t => chanSum wo xp dil t))

/-- Per-channel bias add (`bias=True` of a torch conv). -/
def biasAdd (b : List ℚ) (x : Tensor2) : Tensor2 :=
  List.zipWith (fun ch bc => ch.map (fun v => v + bc)) x b

/-- Elementwise product of two feature maps of equal shape. -/
def mulT (x y : Tensor2) : Tensor2 :=
  List.zipWith (List.zipWith (fun a b => a * b)) x y

/-- Elementwise sum of two feature maps of equal shape. -/
def addT (x y : Tensor2) : Tensor2 :=
  List.zipWith (List.zipWith (fun a b => a + b)) x y

/-- Python slice `ch[-L:]` on the time axis: the last `L` entries, the
whole list when `L = 0` (Python `[-0:]` is `[0:]`) or `L ≥ length`. -/
def lastSlice (L : Nat) (ch : List ℚ) : List ℚ :=
  if L = 0 then ch else ch.drop (ch.length - L)

/-- The `network.py` class `DilatedCausalConv1d`: a kernel-size-2 `Conv1d`
with `padding = dilation` (set in `__init__`), no bias; `forward` trims
the final `padding` timesteps (`output[:, :, :-self.padding]`). -/
structure DilatedCausalConv1d where
  weight : List (List (List ℚ))
  dilation : Nat

/-- The `DilatedCausalConv1d.forward` on one batch element. -/
def DilatedCausalConv1d.forward1 (c : DilatedCausalConv1d) (x : Tensor2) : Tensor2 :=
  let output := conv1d c.weight c.dilation c.dilation x
  output.map (fun ch => ch.take (ch.length - c.dilation))

/-- The `DilatedCausalConv1d.forward`: batch elements are processed
independently by the convolution. -/
def DilatedCausalConv1d.forward (c : DilatedCausalConv1d) (x : Tensor3) : Tensor3 :=
  x.map c.forward1

/-- A 1×1 `torch.nn.Conv1d(in, out, 1)` with its default bias. -/
structure Conv1x1 where
  weight : List (List (List ℚ))
  bias : List ℚ

/-- Forward pass of a 1×1 conv: `conv1d` with padding 0, dilation 1,
then the bias add. -/
def Conv1x1.forward (c : Conv1x1) (x : Tensor2) : Tensor2 :=
  biasAdd c.bias (conv1d c.weight 0 1 x)

/-- The `network.py` class `ResidualBlock`: dilated causal conv, gated
activation (tanh ⊙ sigmoid), 1×1 residual and skip convs.  The two gate
activations are the module fields `gate_tanh`/`gate_sigmoid`
(framework-supplied real functions, carried here as fields). -/
structure ResidualBlock where
  dilated_conv : DilatedCausalConv1d
  tanh_conv : Conv1x1
  sigmoid_conv : Conv1x1
  residual_conv : Conv1x1
  skip_conv : Conv1x1
  gate_tanh : ℚ → ℚ
  gate_sigmoid : ℚ → ℚ

/-- The `ResidualBlock.forward(input, skip_size)` on one batch element.
The line `skip = skip[:, :, -skip_size:]` is commented out in the
source, so `skip_size` is received but never used. -/
def ResidualBlock.forward (rb : ResidualBlock) (input : Tensor2) (skip_size : Int) :
    Tensor2 × Tensor2 :=
  let output := rb.dilated_conv.forward1 input
  let gated_tanh := (rb.tanh_conv.forward output).map (fun ch => ch.map rb.gate_tanh)
  let gated_sigmoid := (rb.sigmoid_conv.forward output).map (fun ch => ch.map rb.gate_sigmoid)
  let gated := mulT gated_tanh gated_sigmoid
  let res := rb.residual_conv.forward gated
  let outLen := (res.headD []).length
  let res2 := addT res (input.map (lastSlice outLen))
  let skip := rb.skip_conv.forward gated
  (res2, skip)

/-- Fresh parameters for one residual block (the random initial state of
`ResidualBlock.__init__`, one record per constructed block). -/
structure RBParams where
  dilated_weight : List (List (List ℚ))
  tanh_conv : Conv1x1
  sigmoid_conv : Conv1x1
  residual_conv : Conv1x1
  skip_conv : Conv1x1
  gate_tanh : ℚ → ℚ
  gate_sigmoid : ℚ → ℚ

/-- The `ResidualStack._residual_block` / `ResidualBlock.__init__`: build a
block with the given dilation (stored in its `DilatedCausalConv1d`). -/
def mkResidualBlock (p : RBParams) (dilation : Nat) : ResidualBlock :=
  { dilated_conv := { weight := p.dilated_weight, dilation := dilation }
    tanh_conv := p.tanh_conv
    sigmoid_conv := p.sigmoid_conv
    residual_conv := p.residual_conv
    skip_conv := p.skip_conv
    gate_tanh := p.gate_tanh
    gate_sigmoid := p.gate_sigmoid }

/-- The `ResidualStack.build_dilations`:
`[2 ** i for i in range(self.layer_size)] * self.stack_size`. -/
def build_dilations (layer_size stack_size : Nat) : List Nat :=
  List.flatten (List.replicate stack_size ((List.range layer_size).map (fun i => 2 ^ i)))

/-- The `ResidualStack.stack_res_blocks`: one freshly initialised block per
dilation; the fresh random parameters are modelled by a supply indexed
by block position. -/
def stack_res_blocks (layer_size stack_size : Nat) (paramsOf : Nat → RBParams) :
    List ResidualBlock :=
  ((build_dilations layer_size stack_size).enum).map
    (fun p => mkResidualBlock (paramsOf p.1) p.2)

/-- The `network.py` class `ResidualStack`. -/
structure ResidualStack where
  layer_size : Nat
  stack_size : Nat
  res_blocks : List ResidualBlock

/-- One turn of the loop in `ResidualStack.forward`:
`output, skip = res_block(output, skip_size); sum += skip`.  Python
initialises `sum` with the integer `0`, which the first broadcast add
turns into the first skip tensor; the accumulator is therefore an
`Option` (`none` = the initial scalar 0). -/
def stackStep (skip_size : Int) (st : Tensor2 × Option Tensor2) (rb : ResidualBlock) :
    Tensor2 × Option Tensor2 :=
  let os := rb.forward st.1 skip_size
  (os.1, some (match st.2 with
    | none => os.2
    | some s => addT s os.2))

/-- The `ResidualStack.forward`: chain the blocks on the residual path,
accumulating `sum += skip`, and return only the skip sum. -/
def ResidualStack.forward (rs : ResidualStack) (input : Tensor2) (skip_size : Int) :
    Tensor2 :=
  ((rs.res_blocks.foldl (stackStep skip_size) (input, none)).2).getD []

/-- Elementwise ReLU, `max 0 x`. -/
def reluT (x : Tensor2) : Tensor2 :=
  x.map (fun ch => ch.map (fun v => max 0 v))

/-- The `network.py` class `PostProcess`: ReLU → 1×1 conv → ReLU → 1×1 conv
→ sigmoid (the sigmoid kept as a function-valued field). -/
structure PostProcess where
  conv1 : Conv1x1
  conv2 : Conv1x1
  sigmoid : ℚ → ℚ

def PostProcess.forward (pp : PostProcess) (input : Tensor2) : Tensor2 :=
  let o1 := pp.conv1.forward (reluT input)
  let o2 := pp.conv2.forward (reluT o1)
  o2.map (fun ch => ch.map pp.sigmoid)

/-- The `network.py` class `Wavenet`.  Its `receptive_field` is the
Python `int` obtained from a numpy `int64` sum, so it is a signed value
(negative after int64 wraparound). -/
structure Wavenet where
  receptive_field : Int
  causal : DilatedCausalConv1d
  res_stacks : ResidualStack
  post : PostProcess

/-- Reinterpretation of an integer as a signed 64-bit value: reduce
modulo `2^64`, then shift the upper half down (two's complement). -/
def int64Wrap (n : Int) : Int :=
  if n % 2 ^ 64 < 2 ^ 63 then n % 2 ^ 64 else n % 2 ^ 64 - 2 ^ 64

/-- One accumulation step of a numpy `int64` sum: add, then wrap. -/
def int64Add (a b : Int) : Int :=
  int64Wrap (a + b)

/-- The `Wavenet.calc_receptive_field`:
`int(np.sum([2 ** i for i in range(layer_size)] * stack_size))`.
numpy converts the Python list to an `int64` array (valid while every
element `2 ** i` fits `int64`, i.e. `layer_size ≤ 63`; beyond that the
conversion itself raises) and accumulates in `int64`, wrapping on
overflow; `int(...)` returns that signed value. -/
def Wavenet.calc_receptive_field (layer_size stack_size : Nat) : Int :=
  let layers := List.flatten
    (List.replicate stack_size ((List.range layer_size).map (fun i => (2 : Int) ^ i)))
  layers.foldl int64Add 0

/-- The `Wavenet.__init__` for a given parameter supply: causal conv has
dilation 1, the stack is built from the dilation schedule. -/
def Wavenet.init (layer_size stack_size : Nat)
    (causalW : List (List (List ℚ))) (paramsOf : Nat → RBParams)
    (post : PostProcess) : Wavenet :=
  { receptive_field := Wavenet.calc_receptive_field layer_size stack_size
    causal := { weight := causalW, dilation := 1 }
    res_stacks :=
      { layer_size := layer_size
        stack_size := stack_size
        res_blocks := stack_res_blocks layer_size stack_size paramsOf }
    post := post }

/-- The `Wavenet.calc_output_size`: input length minus the receptive field
(a Python `int`, possibly negative). -/
def Wavenet.calc_output_size (w : Wavenet) (input : Tensor2) : Int :=
  ((input.headD []).length : Int) - w.receptive_field

/-- The `Wavenet.forward` on one batch element: causal conv, residual
stack (which receives `output_size` as `skip_size`), post-processing. -/
def Wavenet.forward (w : Wavenet) (input : Tensor2) : Tensor2 :=
  let output_size := w.calc_output_size input
  let o1 := w.causal.forward1 input
  let o2 := w.res_stacks.forward o1 output_size
  w.post.forward o2

/-! ### `v1 & v2/Model.py`: spectral normalisation over rational matrices -/

/-- A 2-D tensor (matrix), row major. -/
abbrev Mat : Type := List (List ℚ)

/-- Matrix transpose via indexed reads (missing entries read 0). -/
def transposeM (m : Mat) : Mat :=
  (List.range ((m.headD []).length)).map (fun j => m.map (fun row => row.getD j 0))

/-- The `tf.matmul` on row-major rational matrices. -/
def matMul (a b : Mat) : Mat :=
  a.map (fun row =>
    (List.range ((b.headD []).length)).map (fun j =>
      ((List.range row.length).map (fun k => row.getD k 0 * (b.getD k []).getD j 0)).sum))

/-- The `tf.reduce_sum(inputs ** 2)`: sum of squares of all entries. -/
def sumSq (m : Mat) : ℚ :=
  (m.map (fun r => (r.map (fun v => v * v)).sum)).sum

/-- Elementwise division of a matrix by a scalar. -/
def divM (m : Mat) (d : ℚ) : Mat :=
  m.map (fun r => r.map (fun v => v / d))

/-- The `Model.py` `_l2_normalize`: divide by the L2 norm plus `1e-12`.
The square root `** 0.5` is a framework primitive, carried as the
function argument `sq`. -/
def l2_normalize (sq : ℚ → ℚ) (inputs : Mat) : Mat :=
  divM inputs (sq (sumSq inputs) + (1 : ℚ) / 1000000000000)

/-- The `Model.py` constant `ITERS`. -/
def ITERS : Nat := 1

/-- The `power_iteration` loop body of `spectral_norm`:
`v_ip1 = normalize(u_i · w^T)`, `u_ip1 = normalize(v_ip1 · w)`. -/
def power_iteration (sq : ℚ → ℚ) (w : Mat) (st : Nat × Mat × Mat) : Nat × Mat × Mat :=
  let v_ip1 := l2_normalize sq (matMul st.2.1 (transposeM w))
  let u_ip1 := l2_normalize sq (matMul v_ip1 w)
  (st.1 + 1, u_ip1, v_ip1)

/-- The `tf.while_loop(cond = i < ITERS, body = power_iteration, ...)`,
modelled with explicit fuel; fuel `ITERS` is enough because `i`
increases by one per iteration. -/
def spectralLoop (sq : ℚ → ℚ) (w : Mat) : Nat → Nat × Mat × Mat → Nat × Mat × Mat
  | 0, st => st
  | fuel + 1, st =>
      if st.1 < ITERS then spectralLoop sq w fuel (power_iteration sq w st) else st

/-- An all-zero matrix (`tf.zeros`). -/
def zerosM (r c : Nat) : Mat :=
  List.replicate r (List.replicate c 0)

/-- The `Model.py` `spectral_norm` on the 2-D reshaped weight `w` (the
source first runs `tf.reshape(inputs, [-1, input_shape[-1]])`, i.e.
flattens all leading axes into rows; `w` here is that matrix) and the
persisted row vector `u`: run the while loop from
`(0, u, tf.zeros([1, rows w]))`, then divide `w` by
`(v_final · w · u_final^T)[0, 0]`. -/
def spectral_norm (sq : ℚ → ℚ) (w u : Mat) : Mat :=
  let res := spectralLoop sq w ITERS (0, u, zerosM 1 w.length)
  let u_final := res.2.1
  let v_final := res.2.2
  divM w (((matMul (matMul v_final w) (transposeM u_final)).getD 0 []).getD 0 0)

/-- The spec's description of the normalisation:
`normalize(x) = x / (L2-norm(x) + 1e-12)`. -/
def specNormalize (sq : ℚ → ℚ) (x : Mat) : Mat :=
  divM x (sq (sumSq x) + (1 : ℚ) / 1000000000000)

/-- The spec's description of `spectral_norm`: exactly one
power-iteration step `v = normalize(u·W^T)`, `u1 = normalize(v·W)`,
then scale `W` by `1 / (v·W·u1^T)`. -/
def specSpectralNorm (sq : ℚ → ℚ) (w u : Mat) : Mat :=
  let v := specNormalize sq (matMul u (transposeM w))
  let u1 := specNormalize sq (matMul v w)
  divM w (((matMul (matMul v w) (transposeM u1)).getD 0 []).getD 0 0)

/-! ### `v1 & v2/Model.py`: static shape semantics of the GAN blocks

TensorFlow computes static shapes at graph-construction time
(`get_shape().as_list()`); the resolution and termination claims are
claims about exactly this shape arithmetic, so the ops are embedded at
the shape level (data format NCHW throughout the source). -/

/-- A static NCHW tensor shape. -/
structure Shape4 where
  n : Nat
  c : Nat
  h : Nat
  w : Nat
deriving DecidableEq, Repr

/-- The `ceil(a / b)`, the SAME-padding output-extent rule of TensorFlow. -/
def ceilDiv (a b : Nat) : Nat := (a + b - 1) / b

/-- Shape of `conv` in `Model.py`: `tf.nn.conv2d`/bias/activation with
`padding='SAME'`, so each spatial extent maps to `ceil(extent/stride)`
independently of the kernel size. -/
def convShape (inputs : Shape4) (channels sh sw : Nat) : Shape4 :=
  ⟨inputs.n, channels, ceilDiv inputs.h sh, ceilDiv inputs.w sw⟩

/-- Shape of a broadcast elementwise add (all shapes that meet here are
equal, so this is just the componentwise max). -/
def addBShape (a b : Shape4) : Shape4 :=
  ⟨max a.n b.n, max a.c b.c, max a.h b.h, max a.w b.w⟩

/-- Shape of `upsample`: `size = [i * 2 for i in shape[-2:]]`, nearest
neighbour resize to `size` (the NCHW↔NHWC transposes cancel), batchnorm
and ReLU preserve shape, `conv1`/`conv2` are stride-1 SAME convs to
`channels`, and the `skip` conv (kernel forced 1×1, stride 1) is added
to the conv path. -/
def upsampleShape (inputs : Shape4) (channels : Nat) : Shape4 :=
  let skip : Shape4 := ⟨inputs.n, inputs.c, inputs.h * 2, inputs.w * 2⟩
  let output := convShape (convShape skip channels 1 1) channels 1 1
  let skip2 := convShape skip channels 1 1
  addBShape output skip2

/-- Shape of `label_concat`: the label is tiled to the input's spatial
extent and concatenated on the channel axis. -/
def label_concatShape (inputs : Shape4) (labelC : Nat) : Shape4 :=
  ⟨inputs.n, inputs.c + labelC, inputs.h, inputs.w⟩

/-- Shape of `genblock`: label concat then `upsample`. -/
def genblockShape (inputs : Shape4) (channels labelC : Nat) : Shape4 :=
  upsampleShape (label_concatShape inputs labelC) channels

/-- Shape of `generator1` (a `genblock` with 64 channels). -/
def generator1Shape (inputs : Shape4) (labelC : Nat) : Shape4 :=
  genblockShape inputs 64 labelC

/-- Shape of `generator2` (a `genblock` with 32 channels). -/
def generator2Shape (inputs : Shape4) (labelC : Nat) : Shape4 :=
  genblockShape inputs 32 labelC

/-- Shape of `generator3` (a `genblock` with 16 channels). -/
def generator3Shape (inputs : Shape4) (labelC : Nat) : Shape4 :=
  genblockShape inputs 16 labelC

/-- Shape of `downblock`: 2×2 average pool, stride 2, SAME (halves each
spatial extent, rounding up), two stride-1 SAME convs on the pooled
tensor, plus the 1×1 `skip` conv on the pooled tensor. -/
def downblockShape (inputs : Shape4) (channels : Nat) : Shape4 :=
  let skip : Shape4 := ⟨inputs.n, inputs.c, ceilDiv inputs.h 2, ceilDiv inputs.w 2⟩
  let output := convShape (convShape skip channels 1 1) channels 1 1
  let skip2 := convShape skip channels 1 1
  addBShape output skip2

/-- The `while output.get_shape().as_list()[-2] > 1` loop of
`downsample`: apply `downblock` with `channels * 2 ** i` until the
height reaches 1.  Modelled with explicit fuel; `none` means the fuel
ran out before the loop condition turned false. -/
def downsampleLoop : Nat → Shape4 → Nat → Option Shape4
  | 0, s, _ => if 1 < s.h then none else some s
  | fuel + 1, s, i =>
      if 1 < s.h then downsampleLoop fuel (downblockShape s (16 * 2 ^ i)) (i + 1)
      else some s

/-- The `while output.get_shape().as_list()[-1] > 1` loop of `encoder`:
apply a stride-2 SAME conv with `2 ** (i // 2 + 3)` channels until the
width reaches 1.  Modelled with explicit fuel. -/
def encoderLoop : Nat → Shape4 → Nat → Option Shape4
  | 0, s, _ => if 1 < s.w then none else some s
  | fuel + 1, s, i =>
      if 1 < s.w then encoderLoop fuel (convShape s (2 ^ (i / 2 + 3)) 2 2) (i + 1)
      else some s

/-! ### Shape well-formedness -/

/-- A feature map with `cnt` channels, each of temporal length `T`. -/
def HasShape (x : Tensor2) (cnt T : Nat) : Prop :=
  x.length = cnt ∧ ∀ ch ∈ x, ch.length = T

/-- Well-formed conv weight: nonempty out-channel axis, `cin` in
channels, kernel extent `ker` (the shape torch gives the weight of a
`Conv1d(cin, ·, ker)`). -/
def ConvWf (W : List (List (List ℚ))) (cin ker : Nat) : Prop :=
  W ≠ [] ∧ ∀ wo ∈ W, wo.length = cin ∧ ∀ wc ∈ wo, wc.length = ker

/-- Well-formed 1×1 conv module of `cin` input, `cout` output channels. -/
def Conv1x1Wf (c : Conv1x1) (cin cout : Nat) : Prop :=
  ConvWf c.weight cin 1 ∧ c.weight.length = cout ∧ c.bias.length = cout

/-- Well-formed residual block over widths `(res, dil, skip)`. -/
def RBWf (rb : ResidualBlock) (res dil skip : Nat) : Prop :=
  ConvWf rb.dilated_conv.weight res 2 ∧
  rb.dilated_conv.weight.length = res ∧
  1 ≤ rb.dilated_conv.dilation ∧
  Conv1x1Wf rb.tanh_conv res dil ∧
  Conv1x1Wf rb.sigmoid_conv res dil ∧
  Conv1x1Wf rb.residual_conv dil res ∧
  Conv1x1Wf rb.skip_conv dil skip

/-- Well-formed `Wavenet` over the constructor's channel widths. -/
def WavenetWf (w : Wavenet) (channels res dil skip endCh : Nat) : Prop :=
  ConvWf w.causal.weight channels 2 ∧
  w.causal.weight.length = res ∧
  w.causal.dilation = 1 ∧
  (∀ rb ∈ w.res_stacks.res_blocks, RBWf rb res dil skip) ∧
  Conv1x1Wf w.post.conv1 skip endCh ∧
  Conv1x1Wf w.post.conv2 endCh channels

instance (x : Tensor2) (c T : Nat) : Decidable (HasShape x c T) := by
  unfold HasShape; infer_instance

instance (W : List (List (List ℚ))) (cin ker : Nat) : Decidable (ConvWf W cin ker) := by
  unfold ConvWf; infer_instance

instance (c : Conv1x1) (cin cout : Nat) : Decidable (Conv1x1Wf c cin cout) := by
  unfold Conv1x1Wf; infer_instance

instance (rb : ResidualBlock) (res dil skip : Nat) : Decidable (RBWf rb res dil skip) := by
  unfold RBWf; infer_instance

instance (w : Wavenet) (a b c d e : Nat) : Decidable (WavenetWf w a b c d e) := by
  unfold WavenetWf; infer_instance

/-- The list of the skip outputs of a chain of residual blocks, each
block's residual output feeding the next block's input. -/
def skipsOf : List ResidualBlock → Tensor2 → Int → List Tensor2
  | [], _, _ => []
  | rb :: rest, input, s =>
      (rb.forward input s).2 :: skipsOf rest (rb.forward input s).1 s

/-- Left-fold sum of a list of equally-shaped feature maps (empty list:
the Python integer 0, rendered as the empty tensor). -/
def sumTensors : List Tensor2 → Tensor2
  | [] => []
  | sk :: rest => rest.foldl addT sk

/-- A concrete 1×1 conv with unit weight and zero bias (1 in, 1 out). -/
def cexConv1x1 : Conv1x1 := ⟨[[[1]]], [0]⟩

/-- Concrete parameters for one residual block, all widths 1; the gate
activations are instantiated with the identity. -/
def cexRBParams : RBParams :=
  ⟨[[[1, 1]]], cexConv1x1, cexConv1x1, cexConv1x1, cexConv1x1, id, id⟩

/-- Concrete post-processing module, all widths 1, identity sigmoid. -/
def cexPost : PostProcess := ⟨cexConv1x1, cexConv1x1, id⟩

/-- A concrete `Wavenet(layer_size=1, stack_size=1)` with all channel
widths 1 (receptive field 1). -/
def cexWavenet : Wavenet := Wavenet.init 1 1 [[[1, 1]]] (fun _ => cexRBParams) cexPost

/-! ### Indexed-read helper lemmas -/

lemma getD_of_lt {α : Type} (l : List α) {i : Nat} (h : i < l.length) (d : α) :
    l.getD i d = l[i] := by
  simp [List.getD_eq_getElem?_getD, List.getElem?_eq_getElem h]

lemma getD_of_ge {α : Type} (l : List α) {i : Nat} (h : l.length ≤ i) (d : α) :
    l.getD i d = d := by
  simp [List.getD_eq_getElem?_getD, List.getElem?_eq_none h]

lemma getD_map_of_lt {α β : Type} (f : α → β) (l : List α) {i : Nat}
    (h : i < l.length) (d : α) (d2 : β) :
    (l.map f).getD i d2 = f (l.getD i d) := by
  simp [List.getD_eq_getElem?_getD, List.getElem?_eq_getElem, h, getD_of_lt l h d]

lemma getD_range_map_of_lt {α : Type} (f : Nat → α) {n i : Nat} (h : i < n) (d : α) :
    ((List.range n).map f).getD i d = f i := by
  rw [getD_map_of_lt f (List.range n) (by simpa using h) 0,
    getD_of_lt (List.range n) (by simpa using h), List.getElem_range]

lemma getD_take_of_lt (l : List ℚ) {m t : Nat} (h : t < m) :
    (l.take m).getD t 0 = l.getD t 0 := by
  simp [List.getD_eq_getElem?_getD, List.getElem?_take_of_lt h]

/-- Reading the padded channel: zeros for the first `d` positions, then
the original channel shifted by `d` (reads past the end give 0 on both
sides). -/
lemma pad1d_getD (d : Nat) (xc : List ℚ) (j : Nat) :
    (pad1d d xc).getD j 0 = if j < d then 0 else xc.getD (j - d) 0 := by
  unfold pad1d
  rcases Nat.lt_or_ge j d with h | h
  · rw [if_pos h, List.getD_eq_getElem?_getD,
      List.getElem?_append_left (by simp; omega),
      List.getElem?_append_left (by simpa using h)]
    simp [List.getElem?_replicate, h]
  · rw [if_neg (by omega)]
    rcases Nat.lt_or_ge (j - d) xc.length with h2 | h2
    · rw [List.getD_eq_getElem?_getD,
        List.getElem?_append_left (by simp; omega),
        List.getElem?_append_right (by simpa using h), List.length_replicate,
        List.getD_eq_getElem?_getD]
    · rw [List.getD_eq_getElem?_getD,
        List.getElem?_append_right (by simp; omega),
        getD_of_ge xc h2]
      rcases Nat.lt_or_ge (j - (d + xc.length)) d with h3 | h3
      · simp [List.getElem?_replicate, h3]
      · rw [List.getElem?_eq_none (by simp; omega)]
        rfl

/-! ### Shape lemmas for the WaveNet operators -/

lemma hasShape_headD {x : Tensor2} {c T : Nat} (h : HasShape x c T) (hc : 1 ≤ c) :
    (x.headD []).length = T := by
  rcases x with _ | ⟨ch0, x2⟩
  · exact absurd h.1 (by simp; omega)
  · exact h.2 ch0 (by simp)

lemma hasShape_map_map (f : ℚ → ℚ) {x : Tensor2} {c T : Nat} (h : HasShape x c T) :
    HasShape (x.map (fun ch => ch.map f)) c T := by
  refine ⟨by simp [h.1], ?_⟩
  intro ch hch
  rw [List.mem_map] at hch
  obtain ⟨a, ha, rfl⟩ := hch
  simp [h.2 a ha]

lemma hasShape_zipWith (f : ℚ → ℚ → ℚ) {x y : Tensor2} {c T : Nat}
    (hx : HasShape x c T) (hy : HasShape y c T) :
    HasShape (List.zipWith (List.zipWith f) x y) c T := by
  refine ⟨by simp [hx.1, hy.1], ?_⟩
  intro ch hch
  rw [List.mem_iff_getElem] at hch
  obtain ⟨i, hi, rfl⟩ := hch
  rw [List.getElem_zipWith]
  simp only [List.length_zipWith] at hi
  have hix : i < x.length := lt_of_lt_of_le hi (min_le_left _ _)
  have hiy : i < y.length := lt_of_lt_of_le hi (min_le_right _ _)
  simp [hx.2 _ (List.getElem_mem hix), hy.2 _ (List.getElem_mem hiy)]

lemma hasShape_mulT {x y : Tensor2} {c T : Nat}
    (hx : HasShape x c T) (hy : HasShape y c T) : HasShape (mulT x y) c T :=
  hasShape_zipWith _ hx hy

lemma hasShape_addT {x y : Tensor2} {c T : Nat}
    (hx : HasShape x c T) (hy : HasShape y c T) : HasShape (addT x y) c T :=
  hasShape_zipWith _ hx hy

lemma hasShape_biasAdd {b : List ℚ} {x : Tensor2} {c T : Nat}
    (hx : HasShape x c T) (hb : b.length = c) :
    HasShape (biasAdd b x) c T := by
  refine ⟨by simp [biasAdd, hx.1, hb], ?_⟩
  intro ch hch
  rw [List.mem_iff_getElem] at hch
  obtain ⟨i, hi, rfl⟩ := hch
  unfold biasAdd
  rw [List.getElem_zipWith]
  simp only [biasAdd, List.length_zipWith] at hi
  have hix : i < x.length := lt_of_lt_of_le hi (min_le_left _ _)
  simp [hx.2 _ (List.getElem_mem hix)]

lemma conv1d_shape {W : List (List (List ℚ))} {cin ker : Nat} (pad dil : Nat)
    {x : Tensor2} {T : Nat}
    (hW : ConvWf W cin ker) (hcin : 1 ≤ cin)
    (hx : HasShape x cin T) :
    HasShape (conv1d W pad dil x) W.length (T + 2 * pad - dil * (ker - 1)) := by
  obtain ⟨hne, hall⟩ := hW
  obtain ⟨hxl, hxc⟩ := hx
  have hker : ((W.headD []).headD []).length = ker := by
    rcases W with _ | ⟨wo, W2⟩
    · exact absurd rfl hne
    · rcases hall wo (by simp) with ⟨hwol, hwk⟩
      rcases wo with _ | ⟨wc, wo2⟩
      · exact absurd hwol.symm (by simp; omega)
      · exact hwk wc (by simp)
  have hT : (x.headD []).length = T := by
    rcases x with _ | ⟨ch0, x2⟩
    · exact absurd hxl (by simp; omega)
    · exact hxc ch0 (by simp)
  refine ⟨by simp [conv1d], ?_⟩
  intro ch hch
  simp only [conv1d] at hch
  rw [List.mem_map] at hch
  obtain ⟨wo, hwo, rfl⟩ := hch
  simp only [List.length_map, List.length_range]
  rw [hT, hker]

lemma dcconv_forward1_shape {c : DilatedCausalConv1d} {cin T : Nat} {x : Tensor2}
    (hW : ConvWf c.weight cin 2) (hcin : 1 ≤ cin) (hd : 1 ≤ c.dilation)
    (hx : HasShape x cin T) :
    HasShape (c.forward1 x) c.weight.length T := by
  have hconv := conv1d_shape c.dilation c.dilation hW hcin hx
  have hlen : T + 2 * c.dilation - c.dilation * (2 - 1) = T + c.dilation := by omega
  rw [hlen] at hconv
  refine ⟨by simp [DilatedCausalConv1d.forward1, hconv.1], ?_⟩
  intro ch hch
  simp only [DilatedCausalConv1d.forward1] at hch
  rw [List.mem_map] at hch
  obtain ⟨ch0, hch0, rfl⟩ := hch
  have h0 := hconv.2 ch0 hch0
  simp [h0]

lemma conv1x1_shape {c : Conv1x1} {cin cout T : Nat} {x : Tensor2}
    (hc : Conv1x1Wf c cin cout) (hcin : 1 ≤ cin) (hx : HasShape x cin T) :
    HasShape (c.forward x) cout T := by
  obtain ⟨hw, hwl, hbl⟩ := hc
  have hconv := conv1d_shape 0 1 hw hcin hx
  have he : T + 2 * 0 - 1 * (1 - 1) = T := by omega
  rw [he, hwl] at hconv
  exact hasShape_biasAdd hconv hbl

lemma lastSlice_self (ch : List ℚ) : lastSlice ch.length ch = ch := by
  unfold lastSlice
  split
  · rfl
  · simp

lemma map_lastSlice_id {x : Tensor2} {T : Nat} (h : ∀ ch ∈ x, ch.length = T) :
    x.map (lastSlice T) = x := by
  have h2 : x.map (lastSlice T) = x.map id :=
    List.map_congr_left (fun a ha => by rw [← h a ha]; exact lastSlice_self a)
  rw [h2, List.map_id]

lemma residualBlock_shape {rb : ResidualBlock} {res dil skip T : Nat}
    {input : Tensor2} (s : Int)
    (hwf : RBWf rb res dil skip) (hres : 1 ≤ res) (hdil : 1 ≤ dil)
    (hin : HasShape input res T) :
    HasShape (rb.forward input s).1 res T ∧ HasShape (rb.forward input s).2 skip T := by
  obtain ⟨hdc, hdcl, hd1, htan, hsig, hresc, hskipc⟩ := hwf
  have h1 : HasShape (rb.dilated_conv.forward1 input) res T := by
    have h := dcconv_forward1_shape hdc hres hd1 hin
    rwa [hdcl] at h
  have hgt := hasShape_map_map rb.gate_tanh (conv1x1_shape htan hres h1)
  have hgs := hasShape_map_map rb.gate_sigmoid (conv1x1_shape hsig hres h1)
  have hg := hasShape_mulT hgt hgs
  have hr := conv1x1_shape hresc hdil hg
  have hL := hasShape_headD hr hres
  have hsl : HasShape (input.map (lastSlice T)) res T := by
    rw [map_lastSlice_id hin.2]; exact hin
  have hsk := conv1x1_shape hskipc hdil hg
  constructor
  · show HasShape (addT _ _) res T
    rw [hL]
    exact hasShape_addT hr hsl
  · exact hsk

lemma stack_fold_shape {res dil skip T : Nat} (s : Int) :
    ∀ (blocks : List ResidualBlock) (input a : Tensor2),
      (∀ rb ∈ blocks, RBWf rb res dil skip) → 1 ≤ res → 1 ≤ dil →
      HasShape input res T → HasShape a skip T →
      ∃ r, (blocks.foldl (stackStep s) (input, some a)).2 = some r ∧ HasShape r skip T := by
  intro blocks
  induction blocks with
  | nil =>
      intro input a _ _ _ _ ha
      exact ⟨a, rfl, ha⟩
  | cons rb rest ih =>
      intro input a hwf hres hdil hi ha
      have hb := residualBlock_shape s (hwf rb (by simp)) hres hdil hi
      have hstep : (stackStep s (input, some a) rb) =
          ((rb.forward input s).1, some (addT a (rb.forward input s).2)) := rfl
      rw [List.foldl_cons, hstep]
      exact ih _ _ (fun b hb2 => hwf b (by simp [hb2])) hres hdil hb.1
        (hasShape_addT ha hb.2)

lemma stack_forward_shape {rs : ResidualStack} {res dil skip T : Nat} (s : Int)
    (hwf : ∀ rb ∈ rs.res_blocks, RBWf rb res dil skip)
    (hres : 1 ≤ res) (hdil : 1 ≤ dil)
    (hne : rs.res_blocks ≠ []) {input : Tensor2} (hi : HasShape input res T) :
    HasShape (rs.forward input s) skip T := by
  unfold ResidualStack.forward
  rcases hblocks : rs.res_blocks with _ | ⟨rb, rest⟩
  · exact absurd hblocks hne
  rw [hblocks] at hwf
  have hb := residualBlock_shape s (hwf rb (by simp)) hres hdil hi
  have hstep : (stackStep s (input, none) rb) =
      ((rb.forward input s).1, some (rb.forward input s).2) := rfl
  rw [List.foldl_cons, hstep]
  obtain ⟨r, hr, hrs⟩ := stack_fold_shape s rest (rb.forward input s).1
    (rb.forward input s).2 (fun b hb2 => hwf b (by simp [hb2])) hres hdil hb.1 hb.2
  rw [hr]
  exact hrs

lemma postprocess_shape {pp : PostProcess} {skip endCh channels T : Nat} {x : Tensor2}
    (h1 : Conv1x1Wf pp.conv1 skip endCh) (h2 : Conv1x1Wf pp.conv2 endCh channels)
    (hskip : 1 ≤ skip) (hend : 1 ≤ endCh)
    (hx : HasShape x skip T) :
    HasShape (pp.forward x) channels T := by
  unfold PostProcess.forward
  have r1 : HasShape (reluT x) skip T := hasShape_map_map _ hx
  have c1 := conv1x1_shape h1 hskip r1
  have r2 : HasShape (reluT (pp.conv1.forward (reluT x))) endCh T := hasShape_map_map _ c1
  have c2 := conv1x1_shape h2 hend r2
  exact hasShape_map_map _ c2

lemma getD_mem_of_lt {α : Type} (l : List α) {i : Nat} (h : i < l.length) (d : α) :
    l.getD i d ∈ l := by
  rw [getD_of_lt l h d]
  exact List.getElem_mem h

lemma convWf_ker {W : List (List (List ℚ))} {cin ker : Nat}
    (hW : ConvWf W cin ker) (hcin : 1 ≤ cin) :
    ((W.headD []).headD []).length = ker := by
  obtain ⟨hne, hall⟩ := hW
  rcases W with _ | ⟨wo, W2⟩
  · exact absurd rfl hne
  · rcases hall wo (by simp) with ⟨hwol, hwk⟩
    rcases wo with _ | ⟨wc, wo2⟩
    · exact absurd hwol.symm (by simp; omega)
    · exact hwk wc (by simp)

/-! ### C2: the receptive-field formula -/

lemma int64Wrap_emod (a : Int) : int64Wrap a % 2 ^ 64 = a % 2 ^ 64 := by
  unfold int64Wrap
  split <;> omega

lemma int64Wrap_congr {a b : Int} (h : a % 2 ^ 64 = b % 2 ^ 64) :
    int64Wrap a = int64Wrap b := by
  unfold int64Wrap
  rw [h]

lemma int64Wrap_add_left (a b : Int) :
    int64Wrap (int64Wrap a + b) = int64Wrap (a + b) := by
  apply int64Wrap_congr
  rw [Int.add_emod, int64Wrap_emod, ← Int.add_emod]

lemma int64Wrap_zero : int64Wrap 0 = 0 := by decide

lemma int64Wrap_eq_self {n : Int} (h0 : 0 ≤ n) (h1 : n < 2 ^ 63) :
    int64Wrap n = n := by
  unfold int64Wrap
  have h2 : n < 2 ^ 64 := lt_trans h1 (by norm_num)
  rw [Int.emod_eq_of_lt h0 h2, if_pos h1]

lemma foldl_int64Add (l : List Int) :
    ∀ a : Int, l.foldl int64Add (int64Wrap a) = int64Wrap (a + l.sum) := by
  induction l with
  | nil => intro a; simp
  | cons x xs ih =>
      intro a
      rw [List.foldl_cons]
      have hstep : int64Add (int64Wrap a) x = int64Wrap (a + x) := by
        unfold int64Add
        exact int64Wrap_add_left a x
      rw [hstep, ih (a + x), List.sum_cons, add_assoc]

/-- A numpy int64 sum started at 0 is the wrap of the exact sum
(wrapping commutes with addition modulo `2^64`). -/
lemma foldl_int64Add_zero (l : List Int) : l.foldl int64Add 0 = int64Wrap l.sum := by
  have h := foldl_int64Add l 0
  rw [int64Wrap_zero, zero_add] at h
  exact h

lemma flatten_replicate_sum_int (n : Nat) (l : List Int) :
    (List.flatten (List.replicate n l)).sum = n * l.sum := by
  induction n with
  | zero => simp
  | succ k ih =>
      rw [List.replicate_succ, List.flatten_cons, List.sum_append, ih]
      push_cast
      ring

lemma sum_range_two_pow_int (L : Nat) :
    ((List.range L).map (fun i => (2 : Int) ^ i)).sum = 2 ^ L - 1 := by
  induction L with
  | zero => simp
  | succ k ih =>
      rw [List.range_succ, List.map_append, List.sum_append, ih]
      simp only [List.map_cons, List.map_nil, List.sum_cons, List.sum_nil, pow_succ]
      ring

/-- C2 (amended): for positive `layer_size` and `stack_size` whose true
receptive field fits a signed 64-bit integer
(`S * (2^L - 1) < 2^63`), `Wavenet.calc_receptive_field L S` equals
`S * (2^L - 1)`, the sum of the dilations `2^0 .. 2^(L-1)` repeated `S`
times; being a pure function of `(L, S)`, the same configuration always
yields the same value.  Outside that range the numpy int64 accumulation
wraps, so the unrestricted formula fails (see the counterexample). -/
theorem receptive_field_closed_form (L S : Nat) (hL : 0 < L) (hS : 0 < S)
    (hfit : (S : Int) * (2 ^ L - 1) < 2 ^ 63) :
    Wavenet.calc_receptive_field L S = (S : Int) * (2 ^ L - 1) := by
  unfold Wavenet.calc_receptive_field
  rw [foldl_int64Add_zero, flatten_replicate_sum_int, sum_range_two_pow_int]
  have h2 : (0 : Int) < 2 ^ L := pow_pos (by norm_num) L
  have h3 : (0 : Int) ≤ (S : Int) := Int.natCast_nonneg S
  exact int64Wrap_eq_self (mul_nonneg h3 (by omega)) hfit

set_option maxRecDepth 20000 in
/-- C2 as stated (for every positive `L`, `S`) is false of the program:
`np.sum` accumulates in `int64`, and at `layer_size = 63`,
`stack_size = 2` (every element `2^0 .. 2^62` fits `int64`) the true sum
`2 * (2^63 - 1) = 2^64 - 2` wraps to `-2`, not `S * (2^L - 1)`. -/
theorem receptive_field_overflow_cex :
    Wavenet.calc_receptive_field 63 2 = -2 ∧
      ¬ (Wavenet.calc_receptive_field 63 2 = (2 : Int) * (2 ^ 63 - 1)) := by
  decide

/-- Witness for the amended C2 at the spec example `L = 3, S = 1`:
`receptive_field = 7`. -/
theorem receptive_field_closed_form_witness :
    (0 < 3 ∧ 0 < 1 ∧ ((1 : Nat) : Int) * (2 ^ 3 - 1) < 2 ^ 63) ∧
      Wavenet.calc_receptive_field 3 1 = ((1 : Nat) : Int) * (2 ^ 3 - 1) :=
  ⟨⟨by decide, by decide, by decide⟩,
    receptive_field_closed_form 3 1 (by decide) (by decide) (by decide)⟩

/-! ### C1: the temporal length of `Wavenet.forward` -/

/-- C1 (amended): `Wavenet.forward` preserves the temporal length: for a
well-formed configuration and an input with `channels` channels of any
length `T ≥ 1`, the output has `channels` channels of length exactly
`T` — not `T - receptive_field`; each `DilatedCausalConv1d` pads by its
dilation before trimming, and the skip trim to `T - receptive_field` is
commented out in `ResidualBlock.forward`. -/
theorem wavenet_forward_preserves_length
    (w : Wavenet) (channels res dil skip endCh T : Nat) (x : Tensor2)
    (hwf : WavenetWf w channels res dil skip endCh)
    (hch : 1 ≤ channels) (hres : 1 ≤ res) (hdil : 1 ≤ dil) (hskip : 1 ≤ skip)
    (hend : 1 ≤ endCh) (hT : 1 ≤ T)
    (hne : w.res_stacks.res_blocks ≠ [])
    (hx : HasShape x channels T) :
    HasShape (w.forward x) channels T := by
  obtain ⟨hcw, hcl, hcd, hblocks, hp1, hp2⟩ := hwf
  unfold Wavenet.forward
  have h1 : HasShape (w.causal.forward1 x) res T := by
    have h := dcconv_forward1_shape hcw hch (by simp [hcd]) hx
    rwa [hcl] at h
  have h2 := stack_forward_shape (w.calc_output_size x) hblocks hres hdil hne h1
  exact postprocess_shape hp1 hp2 hskip hend h2

/-- C1 as stated is false on the code: this `Wavenet` has
`receptive_field = 1` and on an input of temporal length `T = 2`
(`T > receptive_field`) its forward output has temporal length 2, not
`T - receptive_field = 1`. -/
theorem wavenet_forward_length_cex :
    (cexWavenet.forward [[1, 2]]).map List.length = [2] ∧
    cexWavenet.receptive_field = 1 ∧
    ¬ ((cexWavenet.forward [[1, 2]]).map (fun ch => (ch.length : Int))
        = [2 - cexWavenet.receptive_field]) := by
  decide

/-- Witness for the amended C1 at the concrete network above. -/
theorem wavenet_forward_preserves_length_witness :
    WavenetWf cexWavenet 1 1 1 1 1 ∧ HasShape (cexWavenet.forward [[1, 2]]) 1 2 :=
  ⟨by decide,
    wavenet_forward_preserves_length cexWavenet 1 1 1 1 1 2 [[1, 2]] (by decide)
      (by decide) (by decide) (by decide) (by decide) (by decide) (by decide)
      (List.ne_nil_of_length_pos (by decide)) (by decide)⟩

/-! ### C4 and C5: temporal length of `DilatedCausalConv1d.forward` -/

/-- C4: for any dilation ≥ 1, `DilatedCausalConv1d.forward` maps a
batched input of shape `(B, C_in, T)` (with `T ≥ 1`) to shape
`(B, C_out, T)`: the batch count is preserved, each element gets
`C_out = weight.length` channels, and the temporal length is preserved
(pad by `dilation` on both sides, then right-trim by `dilation`). -/
theorem dilated_causal_conv_shape
    (c : DilatedCausalConv1d) (cin T : Nat) (xb : Tensor3)
    (hW : ConvWf c.weight cin 2) (hcin : 1 ≤ cin) (hd : 1 ≤ c.dilation) (hT : 1 ≤ T)
    (hx : ∀ el ∈ xb, HasShape el cin T) :
    (c.forward xb).length = xb.length ∧
      ∀ el ∈ c.forward xb, HasShape el c.weight.length T := by
  constructor
  · simp [DilatedCausalConv1d.forward]
  · intro el hel
    unfold DilatedCausalConv1d.forward at hel
    rw [List.mem_map] at hel
    obtain ⟨e, he, rfl⟩ := hel
    exact dcconv_forward1_shape hW hcin hd (hx e he)

/-- Witness for C4: a concrete conv (`dilation 1`) on a batch of one
element with one channel of length 3. -/
theorem dilated_causal_conv_shape_witness :
    ConvWf [[[1, 2]]] 1 2 ∧
    (DilatedCausalConv1d.forward ⟨[[[1, 2]]], 1⟩ [[[3, 4, 5]]]).length = 1 ∧
      ∀ el ∈ DilatedCausalConv1d.forward ⟨[[[1, 2]]], 1⟩ [[[3, 4, 5]]], HasShape el 1 3 :=
  ⟨by decide,
    dilated_causal_conv_shape ⟨[[[1, 2]]], 1⟩ 1 3 [[[3, 4, 5]]] (by decide) (by decide)
      (by decide) (by decide) (by decide)⟩

/-- C5 (amended): for a short input, `1 ≤ T ≤ dilation = padding`, the
forward output is NOT degenerate: it still has full temporal length `T`
(the symmetric padding inserts `dilation` zeros on each side before the
right-trim removes `dilation` samples), so every output channel is
nonempty. -/
theorem dilated_causal_conv_short_input
    (c : DilatedCausalConv1d) (cin T : Nat) (x : Tensor2)
    (hW : ConvWf c.weight cin 2) (hcin : 1 ≤ cin) (hd : 1 ≤ c.dilation)
    (hT : 1 ≤ T) (hTd : T ≤ c.dilation)
    (hx : HasShape x cin T) :
    HasShape (c.forward1 x) c.weight.length T ∧ ∀ ch ∈ c.forward1 x, ch ≠ [] := by
  have h := dcconv_forward1_shape hW hcin hd hx
  refine ⟨h, ?_⟩
  intro ch hch hemp
  have h2 := h.2 ch hch
  rw [hemp] at h2
  simp at h2
  omega

/-- C5 as stated is false on the code: with dilation 2 (`padding = 2`)
and an input of temporal length `T = 1 ≤ padding`, the output is a
1-channel tensor of temporal length 1, not empty/degenerate. -/
theorem dilated_causal_conv_short_input_cex :
    (DilatedCausalConv1d.forward1 ⟨[[[1, 1]]], 2⟩ [[5]]).map List.length = [1] ∧
      ¬ (DilatedCausalConv1d.forward1 ⟨[[[1, 1]]], 2⟩ [[5]] = [] ∨
          (DilatedCausalConv1d.forward1 ⟨[[[1, 1]]], 2⟩ [[5]]).map List.length = [0]) := by
  decide

/-- Witness for the amended C5 at the same short input. -/
theorem dilated_causal_conv_short_input_witness :
    (1 : Nat) ≤ 2 ∧
    HasShape (DilatedCausalConv1d.forward1 ⟨[[[1, 1]]], 2⟩ [[5]]) 1 1 ∧
      ∀ ch ∈ DilatedCausalConv1d.forward1 ⟨[[[1, 1]]], 2⟩ [[5]], ch ≠ [] :=
  ⟨by decide,
    dilated_causal_conv_short_input ⟨[[[1, 1]]], 2⟩ 1 1 [[5]] (by decide) (by decide)
      (by decide) (by decide) (by decide) (by decide)⟩

/-! ### C3: causality of `DilatedCausalConv1d` -/

lemma padRead_shift (d t : Nat) (xc : List ℚ) :
    (pad1d d xc).getD (t + d) 0 = xc.getD t 0 := by
  rw [pad1d_getD, if_neg (by omega), Nat.add_sub_cancel]

/-- The value read off `DilatedCausalConv1d.forward1` at out-channel `o`
and timestep `t`: within range it is the convolution sum at `t` on the
padded input, outside range it reads the default 0. -/
lemma dcconv_forward1_getD {c : DilatedCausalConv1d} {cin T : Nat} {x : Tensor2}
    (hW : ConvWf c.weight cin 2) (hcin : 1 ≤ cin)
    {o : Nat} (ho : o < c.weight.length) (t : Nat)
    (hx : HasShape x cin T) :
    ((c.forward1 x).getD o []).getD t 0 =
      if t < T then chanSum (c.weight.getD o []) (x.map (pad1d c.dilation)) c.dilation t
      else 0 := by
  have hker := convWf_ker hW hcin
  have hT := hasShape_headD hx hcin
  unfold DilatedCausalConv1d.forward1 conv1d
  rw [List.map_map]
  rw [getD_map_of_lt _ c.weight ho ([] : List (List ℚ))]
  simp only [Function.comp_apply]
  rw [hker, hT]
  simp only [List.length_map, List.length_range]
  have hn : T + 2 * c.dilation - c.dilation * (2 - 1) = T + c.dilation := by omega
  rw [hn]
  rcases Nat.lt_or_ge t T with hlt | hge
  · rw [if_pos hlt, getD_take_of_lt _ (by omega)]
    exact getD_range_map_of_lt _ (by omega) 0
  · rw [if_neg (by omega)]
    exact getD_of_ge _ (by simp [List.length_take]; omega) 0

/-- The `chanSum` at timestep `t` only reads the inputs at timesteps
`t - d` and `t` (kernel size 2), so two inputs agreeing up to `t`
produce the same value. -/
lemma chanSum_causal {wo : List (List ℚ)} {x y : Tensor2} {cin t : Nat} (d : Nat)
    (hwol : wo.length = cin) (hwk : ∀ wc ∈ wo, wc.length = 2)
    (hxl : x.length = cin) (hyl : y.length = cin)
    (hagree : ∀ ch, ch < cin → ∀ j, j ≤ t →
      (x.getD ch []).getD j 0 = (y.getD ch []).getD j 0) :
    chanSum wo (x.map (pad1d d)) d t = chanSum wo (y.map (pad1d d)) d t := by
  unfold chanSum
  congr 1
  apply List.map_congr_left
  intro cidx hc
  rw [List.mem_range] at hc
  have hcx : cidx < x.length := by omega
  have hcy : cidx < y.length := by omega
  rw [getD_map_of_lt (pad1d d) x hcx [], getD_map_of_lt (pad1d d) y hcy []]
  have hwc : (wo.getD cidx []).length = 2 := hwk _ (getD_mem_of_lt wo hc [])
  unfold tapSum
  rw [hwc]
  have hr2 : List.range 2 = [0, 1] := rfl
  rw [hr2]
  simp only [List.map_cons, List.map_nil, List.sum_cons, List.sum_nil,
    Nat.zero_mul, Nat.add_zero, Nat.one_mul]
  rw [padRead_shift, padRead_shift, pad1d_getD, pad1d_getD]
  rw [hagree cidx (by omega) t (Nat.le_refl t)]
  by_cases hlt : t < d
  · rw [if_pos hlt, if_pos hlt]
  · rw [if_neg hlt, if_neg hlt, hagree cidx (by omega) (t - d) (by omega)]

/-- C3: causality of `DilatedCausalConv1d.forward`.  For the same
weights and any dilation ≥ 1, two inputs of the same shape that agree at
all timesteps ≤ t produce outputs that agree at timestep t (in every
output channel): the output at time t depends only on inputs at times
≤ t (it reads exactly times `t - dilation` and `t`). -/
theorem dilated_causal_conv_causal
    (c : DilatedCausalConv1d) (cin T t : Nat) (x y : Tensor2)
    (hW : ConvWf c.weight cin 2) (hcin : 1 ≤ cin) (hd : 1 ≤ c.dilation)
    (hx : HasShape x cin T) (hy : HasShape y cin T)
    (hagree : ∀ ch, ch < cin → ∀ j, j ≤ t →
      (x.getD ch []).getD j 0 = (y.getD ch []).getD j 0) :
    ∀ o, ((c.forward1 x).getD o []).getD t 0 = ((c.forward1 y).getD o []).getD t 0 := by
  intro o
  rcases Nat.lt_or_ge o c.weight.length with ho | ho
  · rw [dcconv_forward1_getD hW hcin ho t hx, dcconv_forward1_getD hW hcin ho t hy]
    rcases Nat.lt_or_ge t T with hlt | hge
    · rw [if_pos hlt, if_pos hlt]
      have hwo := hW.2 _ (getD_mem_of_lt c.weight ho [])
      exact chanSum_causal c.dilation hwo.1 hwo.2 hx.1 hy.1 hagree
    · rw [if_neg (by omega), if_neg (by omega)]
  · have hlx : (c.forward1 x).length ≤ o := by
      have h := (dcconv_forward1_shape hW hcin hd hx).1
      omega
    have hly : (c.forward1 y).length ≤ o := by
      have h := (dcconv_forward1_shape hW hcin hd hy).1
      omega
    rw [getD_of_ge _ hlx, getD_of_ge _ hly]

/-- Witness for C3: dilation 1, two inputs agreeing only at timestep 0;
the outputs agree at timestep 0. -/
theorem dilated_causal_conv_causal_witness :
    (∀ ch, ch < 1 → ∀ j, j ≤ 0 →
      (([[1, 5]] : Tensor2).getD ch []).getD j 0 =
        (([[1, 7]] : Tensor2).getD ch []).getD j 0) ∧
    ((DilatedCausalConv1d.forward1 ⟨[[[2, 3]]], 1⟩ [[1, 5]]).getD 0 []).getD 0 0 =
      ((DilatedCausalConv1d.forward1 ⟨[[[2, 3]]], 1⟩ [[1, 7]]).getD 0 []).getD 0 0 :=
  ⟨by decide,
    dilated_causal_conv_causal ⟨[[[2, 3]]], 1⟩ 1 2 0 [[1, 5]] [[1, 7]] (by decide)
      (by decide) (by decide) (by decide) (by decide) (by decide) 0⟩

/-! ### C6: structure and behaviour of `ResidualStack` -/

lemma build_dilations_eq (L S : Nat) :
    build_dilations L S = (List.range (L * S)).map (fun i => 2 ^ (i % L)) := by
  induction S with
  | zero => simp [build_dilations]
  | succ k ih =>
      unfold build_dilations at ih ⊢
      rw [List.replicate_succ, List.flatten_cons]
      have hmul : L * (k + 1) = L + L * k := by ring
      rw [hmul, List.range_add, List.map_append]
      congr 1
      · apply List.map_congr_left
        intro a ha
        rw [List.mem_range] at ha
        rw [Nat.mod_eq_of_lt ha]
      · rw [ih, List.map_map]
        apply List.map_congr_left
        intro a ha
        simp only [Function.comp_apply]
        rw [Nat.add_mod_left]

lemma stack_fold_skips (s : Int) :
    ∀ (blocks : List ResidualBlock) (input a : Tensor2),
      (blocks.foldl (stackStep s) (input, some a)).2 =
        some ((skipsOf blocks input s).foldl addT a) := by
  intro blocks
  induction blocks with
  | nil => intro input a; rfl
  | cons rb rest ih =>
      intro input a
      rw [List.foldl_cons]
      have hstep : stackStep s (input, some a) rb =
          ((rb.forward input s).1, some (addT a (rb.forward input s).2)) := rfl
      rw [hstep, ih]
      simp [skipsOf]

lemma stack_forward_eq_sumTensors (rs : ResidualStack) (input : Tensor2) (s : Int) :
    rs.forward input s = sumTensors (skipsOf rs.res_blocks input s) := by
  unfold ResidualStack.forward
  rcases hb : rs.res_blocks with _ | ⟨rb, rest⟩
  · rfl
  · rw [List.foldl_cons]
    have hstep : stackStep s (input, none) rb =
        ((rb.forward input s).1, some (rb.forward input s).2) := rfl
    rw [hstep, stack_fold_skips]
    simp [skipsOf, sumTensors]

/-- C6: `stack_res_blocks` builds exactly `layer_size * stack_size`
blocks; block `i` (0-indexed) carries dilation `2 ^ (i % layer_size)`;
and `ResidualStack.forward` chains each block's residual output into the
next block's input while returning only the (left-folded) sum of all the
skip outputs. -/
theorem residual_stack_structure :
    ∀ (L S : Nat) (paramsOf : Nat → RBParams),
      (stack_res_blocks L S paramsOf).length = L * S ∧
      ((stack_res_blocks L S paramsOf).map (fun rb => rb.dilated_conv.dilation)
        = (List.range (L * S)).map (fun i => 2 ^ (i % L))) ∧
      (∀ (input : Tensor2) (s : Int),
        ResidualStack.forward ⟨L, S, stack_res_blocks L S paramsOf⟩ input s
          = sumTensors (skipsOf (stack_res_blocks L S paramsOf) input s)) := by
  intro L S paramsOf
  refine ⟨?_, ?_, ?_⟩
  · simp [stack_res_blocks, build_dilations_eq]
  · unfold stack_res_blocks
    rw [List.map_map]
    have hcomp : ((fun rb => rb.dilated_conv.dilation) ∘
        (fun p : Nat × Nat => mkResidualBlock (paramsOf p.1) p.2)) = Prod.snd := by
      funext p
      rfl
    rw [hcomp, List.enum_map_snd, build_dilations_eq]
  · intro input s
    exact stack_forward_eq_sumTensors ⟨L, S, stack_res_blocks L S paramsOf⟩ input s

/-! ### C9: `skip_size` has no effect -/

/-- C9: the `skip_size` argument is dead: both `ResidualBlock.forward`
and `ResidualStack.forward` return identical results for any two values
of `skip_size` on the same input (the trim `skip[:, :, -skip_size:]` is
commented out, so the skip path is never trimmed). -/
theorem skip_size_has_no_effect :
    (∀ (rb : ResidualBlock) (input : Tensor2) (s1 s2 : Int),
        rb.forward input s1 = rb.forward input s2) ∧
    (∀ (rs : ResidualStack) (input : Tensor2) (s1 s2 : Int),
        rs.forward input s1 = rs.forward input s2) :=
  ⟨fun _ _ _ _ => rfl, fun _ _ _ _ => rfl⟩

/-! ### C7: `spectral_norm` performs exactly one power-iteration step -/

/-- C7: with `ITERS = 1`, `spectral_norm` performs exactly one
power-iteration step — `v = normalize(u·W^T)`, `u1 = normalize(v·W)`
with `normalize(x) = x / (sqrt(sum x^2) + 1e-12)` — and returns
`W / (v·W·u1^T)[0,0]`; this holds for every weight matrix `w`, persisted
vector `u` and square-root primitive. -/
theorem spectral_norm_single_power_iteration :
    ∀ (sq : ℚ → ℚ) (w u : Mat), spectral_norm sq w u = specSpectralNorm sq w u :=
  fun _ _ _ => rfl

/-! ### C8: the generator pyramid doubles the spatial resolution -/

/-- C8: applied in sequence to a base feature map of spatial size
`(H, W)`, `generator1`, `generator2`, `generator3` produce outputs of
spatial sizes `(2H, 2W)`, `(4H, 4W)`, `(8H, 8W)`: each `genblock`
upsample resizes by factor 2 and every following conv is stride-1 SAME. -/
theorem generator_pyramid_doubles :
    ∀ (s : Shape4) (labelC : Nat),
      (generator1Shape s labelC).h = 2 * s.h ∧
      (generator1Shape s labelC).w = 2 * s.w ∧
      (generator2Shape (generator1Shape s labelC) labelC).h = 4 * s.h ∧
      (generator2Shape (generator1Shape s labelC) labelC).w = 4 * s.w ∧
      (generator3Shape (generator2Shape (generator1Shape s labelC) labelC) labelC).h
        = 8 * s.h ∧
      (generator3Shape (generator2Shape (generator1Shape s labelC) labelC) labelC).w
        = 8 * s.w := by
  intro s labelC
  simp [generator1Shape, generator2Shape, generator3Shape, genblockShape, upsampleShape,
    label_concatShape, convShape, addBShape, ceilDiv]
  omega

/-! ### C10: the `downsample` and `encoder` while loops terminate -/

lemma downblockShape_h (s : Shape4) (ch : Nat) :
    (downblockShape s ch).h = (s.h + 1) / 2 := by
  simp [downblockShape, convShape, addBShape, ceilDiv]

lemma encConvShape_w (s : Shape4) (ch : Nat) :
    (convShape s ch 2 2).w = (s.w + 1) / 2 := by
  simp [convShape, ceilDiv]

lemma downsampleLoop_term : ∀ (fuel : Nat) (s : Shape4) (i : Nat),
    1 ≤ s.h → s.h ≤ fuel + 1 →
    ∃ r, downsampleLoop fuel s i = some r ∧ r.h = 1 := by
  intro fuel
  induction fuel with
  | zero =>
      intro s i h1 h2
      refine ⟨s, ?_, by omega⟩
      unfold downsampleLoop
      rw [if_neg (by omega)]
  | succ f ih =>
      intro s i h1 h2
      by_cases hh : 1 < s.h
      · unfold downsampleLoop
        rw [if_pos hh]
        exact ih _ _ (by rw [downblockShape_h]; omega) (by rw [downblockShape_h]; omega)
      · refine ⟨s, ?_, by omega⟩
        unfold downsampleLoop
        rw [if_neg hh]

lemma encoderLoop_term : ∀ (fuel : Nat) (s : Shape4) (i : Nat),
    1 ≤ s.w → s.w ≤ fuel + 1 →
    ∃ r, encoderLoop fuel s i = some r ∧ r.w = 1 := by
  intro fuel
  induction fuel with
  | zero =>
      intro s i h1 h2
      refine ⟨s, ?_, by omega⟩
      unfold encoderLoop
      rw [if_neg (by omega)]
  | succ f ih =>
      intro s i h1 h2
      by_cases hh : 1 < s.w
      · unfold encoderLoop
        rw [if_pos hh]
        exact ih _ _ (by rw [encConvShape_w]; omega) (by rw [encConvShape_w]; omega)
      · refine ⟨s, ?_, by omega⟩
        unfold encoderLoop
        rw [if_neg hh]

/-- C10: both while loops terminate for every positive spatial extent:
each `downblock` maps the height `h` to `ceil(h/2)` and each stride-2
encoder conv maps the width `w` to `ceil(w/2)`, strictly decreasing
while the extent exceeds 1, so fuel equal to the starting extent
suffices and the loop exits with the extent equal to 1. -/
theorem downsample_encoder_loops_terminate :
    (∀ (s : Shape4) (i : Nat), 1 ≤ s.h →
        ∃ r, downsampleLoop s.h s i = some r ∧ r.h = 1) ∧
    (∀ (s : Shape4) (i : Nat), 1 ≤ s.w →
        ∃ r, encoderLoop s.w s i = some r ∧ r.w = 1) :=
  ⟨fun s i h => downsampleLoop_term s.h s i h (by omega),
   fun s i h => encoderLoop_term s.w s i h (by omega)⟩

/-- Witness for C10 at a concrete 4×4 feature map (the `downsample`
loop starts at `i = 1`, the `encoder` loop at `i = 0`). -/
theorem downsample_encoder_loops_terminate_witness :
    (1 ≤ (Shape4.mk 1 3 4 4).h ∧
      ∃ r, downsampleLoop 4 (Shape4.mk 1 3 4 4) 1 = some r ∧ r.h = 1) ∧
    (1 ≤ (Shape4.mk 1 3 4 4).w ∧
      ∃ r, encoderLoop 4 (Shape4.mk 1 3 4 4) 0 = some r ∧ r.w = 1) :=
  ⟨⟨by decide, downsample_encoder_loops_terminate.1 ⟨1, 3, 4, 4⟩ 1 (by decide)⟩,
   ⟨by decide, downsample_encoder_loops_terminate.2 ⟨1, 3, 4, 4⟩ 0 (by decide)⟩⟩
